import Mathlib

/-!
Shallow embedding of the fswatcher-rs recursive filesystem watcher:
the inotify back-end (`src/inotify.rs`), the event-delay/coalescing stage
(`src/file_event_delay.rs`) and the shared event type (`src/lib.rs`).

Paths (`OsString`) are modelled as `String`, watch descriptors
(`WatchDescriptor`) as `Nat`, the `BTreeMap`/`HashMap`/`HashSet` containers as
association lists, and the inotify event stream as an explicit list of
buffered items consumed by the poll loop.
-/

namespace Fswatcher

/-- Inotify event-mask bit values, as used by the `inotify` crate. -/
def maskMODIFY : Nat := 2
def maskATTRIB : Nat := 4
def maskMOVED_FROM : Nat := 64
def maskMOVED_TO : Nat := 128
def maskCREATE : Nat := 256
def maskDELETE : Nat := 512
def maskDELETE_SELF : Nat := 1024
def maskIGNORED : Nat := 32768
def maskISDIR : Nat := 1073741824

/-- `EventMask::CREATE | EventMask::ISDIR` (the bits are disjoint, so the
bitwise or equals the sum). -/
def maskCREATE_DIR : Nat := maskCREATE + maskISDIR
def maskDELETE_DIR : Nat := maskDELETE + maskISDIR
def maskMOVED_FROM_DIR : Nat := maskMOVED_FROM + maskISDIR
def maskMOVED_TO_DIR : Nat := maskMOVED_TO + maskISDIR

/-- `StopReason` from `src/lib.rs`. -/
inductive StopReason
  | DirectoryRemoved
deriving DecidableEq

/-- `FileSystemEvent` from `src/lib.rs`, with the error payload elided. -/
inductive FileSystemEvent
  | Stopped (reason : StopReason)
  | DirectoryWatched (p : String)
  | DirectoryCreated (p : String)
  | DirectoryModified (p : String)
  | DirectoryRemoved (p : String)
  | DirectoryMoved (a b : String)
  | FileCreated (p : String)
  | FileModified (p : String)
  | FileRemoved (p : String)
  | FileMoved (a b : String)
  | Error
deriving DecidableEq

/-- One raw inotify record (`EventOwned`): watch descriptor, optional child
name, and the event mask. -/
structure RawRecord where
  wd : Nat
  name : Option String
  mask : Nat
deriving DecidableEq

/-- One item delivered by the inotify `EventStream`: either a record or a
stream-level error (`Poll::Ready(Some(Err(_)))`). -/
inductive RawItem
  | ok (r : RawRecord)
  | err
deriving DecidableEq

/-- Byte-wise lexicographic comparison of char lists, modelling the `Ord`
instance of `OsString` used by `BTreeMap` (byte-wise comparison; identical to
char-wise comparison for ASCII paths). -/
def charListLt : List Char → List Char → Bool
  | _, [] => false
  | [], _ :: _ => true
  | a :: as, b :: bs => if a < b then true else if b < a then false else charListLt as bs

/-- Lexicographic order on paths-as-strings (the `BTreeMap<OsString, _>` key
order). -/
def strLt (a b : String) : Bool := charListLt a.data b.data

/-- Split a character list at every separator (so "/r/a" yields the pieces
"", "r", "a"). -/
def splitComponents : List Char → List (List Char)
  | [] => [[]]
  | c :: rest =>
    if c = '/' then [] :: splitComponents rest
    else match splitComponents rest with
      | [] => [[c]]
      | w :: ws => (c :: w) :: ws

/-- Path components, splitting on the separator (models
`std::path::Path::components` for plain absolute paths without repeated or
trailing separators, the only shapes the watcher constructs). -/
def components (p : String) : List (List Char) := splitComponents p.data

/-- `Path::starts_with`: component-wise prefix test ("/r/a.b" does not start
with "/r/a", while "/r/a/c" does). -/
def pathStartsWith (p base : String) : Bool := (components base).isPrefixOf (components p)

/-- First-match association-list lookup (models `BTreeMap::get` /
`HashMap::get` on a well-formed map). -/
def lookupKey {α β : Type} [DecidableEq α] : List (α × β) → α → Option β
  | [], _ => none
  | e :: r, k => if e.1 = k then some e.2 else lookupKey r k

/-- Key removal (models `BTreeMap::remove` / `HashMap::remove`). -/
def removeKey {α β : Type} [DecidableEq α] (m : List (α × β)) (k : α) : List (α × β) :=
  m.filter (fun e => e.1 ≠ k)

/-- Sorted insertion into the `BTreeMap<OsString, WatchDescriptor>`,
replacing an existing binding of the same key. -/
def insertStr (m : List (String × Nat)) (k : String) (v : Nat) : List (String × Nat) :=
  match m with
  | [] => [(k, v)]
  | e :: r =>
    if strLt k e.1 then (k, v) :: e :: r
    else if e.1 = k then (k, v) :: r
    else e :: insertStr r k v

/-- `HashMap::insert` on an association list: bind the key, dropping any
previous binding. -/
def hmInsert {α β : Type} [DecidableEq α] (m : List (α × β)) (k : α) (v : β) : List (α × β) :=
  (k, v) :: removeKey m k

/-- The state of `FileSystemWatcherInotify` (`src/inotify.rs`, lines 13-21):
pending queue `new_directories`, active mapping `watches_by_path` (sorted) /
`paths_by_watch`, and the pending-release set `removed_watches`.  `nextWd`
models the kernel's supply of fresh watch descriptors. -/
structure WState where
  root_dir : String
  new_directories : List String
  watches_by_path : List (String × Nat)
  paths_by_watch : List (Nat × String)
  removed_watches : List Nat
  nextWd : Nat
deriving DecidableEq

/-- The contiguous run of map entries, starting at the first key not below
`path`, whose paths start with `path`; the scan breaks at the first entry
that does not (`delete_watches` loop, `src/inotify.rs` lines 192-206). -/
def collectSubtree (path : String) : List (String × Nat) → List (String × Nat)
  | [] => []
  | e :: rest => if pathStartsWith e.1 path then e :: collectSubtree path rest else []

/-- The `watches_to_delete` list computed by `delete_watches`:
`range(path..)` over the sorted map, then the break-at-first-non-descendant
scan. -/
def toDelete (s : WState) (path : String) : List (String × Nat) :=
  collectSubtree path (s.watches_by_path.dropWhile (fun e => strLt e.1 path))

/-- `FileSystemWatcherInotify::delete_watches` (`src/inotify.rs` lines
185-216): move every collected entry out of both directions of the active
mapping and into `removed_watches`.  The pending queue is deliberately not
touched (comment at lines 213-215). -/
def delete_watches (s : WState) (path : String) : WState :=
  { s with
    watches_by_path := (toDelete s path).foldl (fun m e => removeKey m e.1) s.watches_by_path,
    paths_by_watch := (toDelete s path).foldl (fun m e => removeKey m e.2) s.paths_by_watch,
    removed_watches := (toDelete s path).foldl (fun r e => r.insert e.2) s.removed_watches }

/-- `FileSystemWatcherInotify::really_delete_watches` (`src/inotify.rs` lines
218-230): physically release every pending-release handle and clear the set
(the kernel-side `rm_watch` calls have no effect on the modelled state). -/
def really_delete_watches (s : WState) : WState :=
  { s with removed_watches := [] }

/-- The path a raw record refers to: the watched directory, extended by the
child name when one is present (`src/inotify.rs` lines 57-64). -/
def eventPath (directory : String) (name : Option String) : String :=
  match name with
  | some n => directory ++ "/" ++ n
  | none => directory

/-- The event-mask dispatch of `translate_inotify_event` for a record whose
handle is in the active mapping (`src/inotify.rs` lines 66-141), given the
watched directory the handle maps to. -/
def translateActive (s : WState) (ev : RawRecord) (directory : String) :
    Option FileSystemEvent × WState :=
  if ev.mask = maskCREATE ∧ ev.name.isSome = true then
        (some (.FileCreated (eventPath directory ev.name)), s)
      else if ev.mask = maskMODIFY ∧ ev.name.isSome = true then
        (some (.FileModified (eventPath directory ev.name)), s)
      else if ev.mask = maskATTRIB ∧ ev.name.isSome = true then
        (some (.FileModified (eventPath directory ev.name)), s)
      else if ev.mask = maskDELETE ∧ ev.name.isSome = true then
        (some (.FileRemoved (eventPath directory ev.name)), s)
      else if ev.mask = maskMOVED_FROM ∧ ev.name.isSome = true then
        (some (.FileRemoved (eventPath directory ev.name)), s)
      else if ev.mask = maskMOVED_TO ∧ ev.name.isSome = true then
        (some (.FileCreated (eventPath directory ev.name)), s)
      else if ev.mask = maskCREATE_DIR ∧ ev.name.isSome = true then
        (some (.DirectoryCreated (eventPath directory ev.name)),
          { s with new_directories := s.new_directories ++ [eventPath directory ev.name] })
      else if ev.mask = maskDELETE_DIR ∧ ev.name.isSome = true then
        (some (.DirectoryRemoved (eventPath directory ev.name)),
          delete_watches s (eventPath directory ev.name))
      else if ev.mask = maskMOVED_FROM_DIR ∧ ev.name.isSome = true then
        (some (.DirectoryRemoved (eventPath directory ev.name)),
          delete_watches s (eventPath directory ev.name))
      else if ev.mask = maskMOVED_TO_DIR ∧ ev.name.isSome = true then
        (some (.DirectoryCreated (eventPath directory ev.name)),
          { s with new_directories := s.new_directories ++ [eventPath directory ev.name] })
      else if ev.mask = maskDELETE_SELF then
        if eventPath directory ev.name = s.root_dir then
          (some (.Stopped .DirectoryRemoved), delete_watches s (eventPath directory ev.name))
        else (none, s)
      else if ev.mask = maskIGNORED then
        (none, s)
      else (none, s)

/-- `FileSystemWatcherInotify::translate_inotify_event` (`src/inotify.rs`
lines 39-142): map one raw record to at most one domain event, with
side effects on the watch-tree state. -/
def translate (s : WState) (ev : RawRecord) : Option FileSystemEvent × WState :=
  if ev.wd ∈ s.removed_watches then
    if ev.mask = maskIGNORED then
      (none, { s with removed_watches := s.removed_watches.erase ev.wd })
    else (none, s)
  else
    match lookupKey s.paths_by_watch ev.wd with
    | none => (none, s)
    | some directory => translateActive s ev directory

/-- The filesystem and kernel oracles consulted by `poll_next`:
`Path::is_dir`, whether `add_watch` succeeds, and the subdirectories found by
`watch_subdirectories`' directory listing. -/
structure Fs where
  isDir : String → Bool
  addWatchOk : String → Bool
  subdirs : String → List String

/-- Installation of one watch inside `poll_next` (`src/inotify.rs` lines
286-296): enter the directory into both directions of the active mapping and
enqueue the subdirectories found on disk. -/
def install_watch (s : WState) (d : String) (wd : Nat) (subs : List String) : WState :=
  { s with
    watches_by_path := insertStr s.watches_by_path d wd,
    paths_by_watch := hmInsert s.paths_by_watch wd d,
    new_directories := s.new_directories ++ subs,
    nextWd := s.nextWd + 1 }

/-- Operations of interest performed during one `poll_next` call, each logged
with the number of raw items still buffered at the moment it runs: `drain`
is one poll of the inotify stream, `release` is `really_delete_watches`, and
`install` is one pop of the pending queue (whether the path is then watched,
skipped, or fails). -/
inductive Op
  | drain
  | release
  | install
deriving DecidableEq

/-- Result of one `poll_next` call: `pending` models `Poll::Pending`, `event`
models `Poll::Ready(Some(_))`. -/
inductive PollOutcome
  | pending
  | event (e : FileSystemEvent)
deriving DecidableEq

/-- Outcome, final state, remaining stream buffer and operation log of one
`poll_next` call. -/
structure PollResult where
  outcome : PollOutcome
  state : WState
  buf : List RawItem
  ops : List (Op × Nat)
deriving DecidableEq

/-- The drain phase of `poll_next` (`src/inotify.rs` lines 241-263), entered
when `new_directories` is empty: poll the stream; on `Pending` call
`really_delete_watches` and return `Pending`; on a record translate it and
return the event if one is produced, otherwise loop.  `translate` never
modifies `new_directories` when it returns no event, so the loop stays in
this phase until it returns. -/
def drainLoop (s : WState) (buf : List RawItem) (ops : List (Op × Nat)) : PollResult :=
  match buf with
  | [] => ⟨.pending, really_delete_watches s, [], ops ++ [(.drain, 0), (.release, 0)]⟩
  | item :: rest =>
    match item with
    | .err => ⟨.event .Error, s, rest, ops ++ [(.drain, rest.length + 1)]⟩
    | .ok r =>
      match translate s r with
      | (some e, s') => ⟨.event e, s', rest, ops ++ [(.drain, rest.length + 1)]⟩
      | (none, s') => drainLoop s' rest (ops ++ [(.drain, rest.length + 1)])

/-- The install phase of `poll_next` (`src/inotify.rs` lines 264-302),
entered while `new_directories` is non-empty: pop the front path; if it is a
directory, install a watch (or report the `add_watch` error), else silently
skip and loop.  `q` mirrors `s.new_directories` throughout. -/
def installGo (fs : Fs) (q : List String) (s : WState) (buf : List RawItem)
    (ops : List (Op × Nat)) : PollResult :=
  match q with
  | [] => drainLoop s buf ops
  | d :: qrest =>
    if fs.isDir d then
      if fs.addWatchOk d then
        ⟨.event (.DirectoryWatched d),
          install_watch { s with new_directories := qrest } d s.nextWd (fs.subdirs d), buf,
          ops ++ [(.install, buf.length)]⟩
      else ⟨.event .Error, { s with new_directories := qrest }, buf,
        ops ++ [(.install, buf.length)]⟩
    else installGo fs qrest { s with new_directories := qrest } buf
      (ops ++ [(.install, buf.length)])

/-- One call of `FileSystemWatcherInotify::poll_next` (`src/inotify.rs` lines
236-304) against a buffer of not-yet-delivered stream items. -/
def pollNext (fs : Fs) (s : WState) (buf : List RawItem) : PollResult :=
  installGo fs s.new_directories s buf []

/-- The ordering property asserted by the spec for one poll call: neither the
physical release of pending-release handles nor the installation of a pending
watch happens while the stream still holds a buffered record. -/
def orderingClaim (r : PollResult) : Prop :=
  ∀ p ∈ r.ops, (p.1 = Op.release ∨ p.1 = Op.install) → p.2 = 0

instance (r : PollResult) : Decidable (orderingClaim r) := by
  unfold orderingClaim; infer_instance

/-- Watch-tree invariant: both directions of the active mapping have
duplicate-free keys, the path-to-handle mapping is injective, the two
directions are mutually inverse, and no pending-release handle is a key of
the active mapping. -/
def Inv (s : WState) : Prop :=
  (s.watches_by_path.map Prod.fst).Nodup ∧
  (s.watches_by_path.map Prod.snd).Nodup ∧
  (s.paths_by_watch.map Prod.fst).Nodup ∧
  (∀ e ∈ s.watches_by_path, (e.2, e.1) ∈ s.paths_by_watch) ∧
  (∀ e ∈ s.paths_by_watch, (e.2, e.1) ∈ s.watches_by_path) ∧
  (∀ wd ∈ s.removed_watches, ∀ e ∈ s.paths_by_watch, e.1 ≠ wd)

instance (s : WState) : Decidable (Inv s) := by
  unfold Inv; infer_instance

/-- A watcher state with no active watches and no pending installations: the
shape the tree is left in after root removal. -/
def deadState (s : WState) : Prop :=
  s.paths_by_watch = [] ∧ s.new_directories = []

instance (s : WState) : Decidable (deadState s) := by
  unfold deadState; infer_instance

/-- Events the implementation can construct (all constructors of the public
event type except `DirectoryModified`, `DirectoryMoved` and `FileMoved`). -/
def allowedEvent : FileSystemEvent → Bool
  | .DirectoryModified _ => false
  | .DirectoryMoved _ _ => false
  | .FileMoved _ _ => false
  | _ => true

/-- State of `FileEventDelay` (`src/file_event_delay.rs` lines 24-40):
`incoming` is `event_queue.0`, `ready` is `event_queue.1`, `processed` is
`processed_events`, and `timerRunning` records whether `timer` is `Some`. -/
structure DelayState where
  incoming : List FileSystemEvent
  ready : List FileSystemEvent
  processed : List FileSystemEvent
  timerRunning : Bool
deriving DecidableEq

/-- `FileEventDelay::process_events` (`src/file_event_delay.rs` lines 56-65):
drain `event_queue.1` into `processed_events` unchanged (the combination step
is an unimplemented TODO) and swap the two batches. -/
def process_events (s : DelayState) : DelayState :=
  { s with
    processed := s.processed ++ s.ready,
    ready := s.incoming,
    incoming := [] }

/-- Result of one `FileEventDelay::poll_next` call; `panicked` models the
`Option::unwrap` panic on the absent timer. -/
inductive DelayPollResult
  | panicked
  | pending (s : DelayState)
  | event (e : FileSystemEvent) (s : DelayState)
deriving DecidableEq

/-- The input-draining loop of `FileEventDelay::poll_next` (lines 79-87):
push every event the source has ready into `event_queue.0`. -/
def delay_fill (s : DelayState) (inputReady : List FileSystemEvent) : DelayState :=
  { s with incoming := s.incoming ++ inputReady }

/-- Timer arming (`src/file_event_delay.rs` lines 89-93): start the interval
if the first batch is non-empty and no timer is running. -/
def delay_arm (s : DelayState) : DelayState :=
  if s.incoming ≠ [] ∧ s.timerRunning = false then { s with timerRunning := true } else s

/-- The body of the `timer elapsed` branch (`src/file_event_delay.rs` lines
97-111): process the second batch, stop the timer if it stayed empty, then
deliver the first processed event if there is one. -/
def delay_emit (s3 : DelayState) : DelayPollResult :=
  if s3.ready = [] then
    match s3.processed with
    | e :: rest => .event e { s3 with timerRunning := false, processed := rest }
    | [] => .pending { s3 with timerRunning := false }
  else
    match s3.processed with
    | e :: rest => .event e { s3 with processed := rest }
    | [] => .pending s3

/-- The timer poll of `FileEventDelay::poll_next` (lines 97-113): polling
`timer.as_mut().unwrap()` panics when no timer is running; otherwise, when
the interval has elapsed, process and try to deliver. -/
def delay_idle (s2 : DelayState) (timerFired : Bool) : DelayPollResult :=
  if s2.timerRunning = false then .panicked
  else if timerFired then delay_emit (process_events s2)
  else .pending s2

/-- `FileEventDelay::poll_next` (`src/file_event_delay.rs` lines 74-118).
`inputReady` lists the events the underlying source yields before returning
`Pending`; `timerFired` is whether polling the interval returns `Ready`. -/
def delay_poll_next (s : DelayState) (inputReady : List FileSystemEvent)
    (timerFired : Bool) : DelayPollResult :=
  match s.processed with
  | e :: rest => .event e { s with processed := rest }
  | [] => delay_idle (delay_arm (delay_fill s inputReady)) timerFired

/-- Filesystem oracle in which every path is a directory, every `add_watch`
succeeds, and directory listings are empty. -/
def fsAll : Fs := { isDir := fun _ => true, addWatchOk := fun _ => true, subdirs := fun _ => [] }

/-- A watcher state with root "/r" watched and nothing else going on. -/
def sRootOnly : WState :=
  { root_dir := "/r"
    new_directories := []
    watches_by_path := [("/r", 0)]
    paths_by_watch := [(0, "/r")]
    removed_watches := []
    nextWd := 1 }

/-- A freshly constructed watcher state: only the root in the pending queue
(`FileSystemWatcherInotify::new`, `src/inotify.rs` lines 24-37). -/
def sFresh : WState :=
  { root_dir := "/r"
    new_directories := ["/r"]
    watches_by_path := []
    paths_by_watch := []
    removed_watches := []
    nextWd := 0 }

/-- State exercising `delete_watches` on the subtree at "/r/a" while the
sorted map interleaves the non-descendant "/r/a.b" between "/r/a" and its
descendant "/r/a/c", and the pending queue holds the descendant "/r/a/d". -/
def sSubtree : WState :=
  { root_dir := "/r"
    new_directories := ["/r/a/d"]
    watches_by_path := [("/r/a", 1), ("/r/a.b", 2), ("/r/a/c", 3)]
    paths_by_watch := [(1, "/r/a"), (2, "/r/a.b"), (3, "/r/a/c")]
    removed_watches := []
    nextWd := 4 }

/-- State with the root and one subdirectory watched. -/
def sRootSub : WState :=
  { root_dir := "/r"
    new_directories := []
    watches_by_path := [("/r", 0), ("/r/sub", 1)]
    paths_by_watch := [(0, "/r"), (1, "/r/sub")]
    removed_watches := []
    nextWd := 2 }

/-- State after root removal: no active watches, one handle still awaiting
physical release. -/
def sDead : WState :=
  { root_dir := "/r"
    new_directories := []
    watches_by_path := []
    paths_by_watch := []
    removed_watches := [2]
    nextWd := 3 }

/-- State whose only live handle is in the pending-release set. -/
def sPending : WState :=
  { root_dir := "/r"
    new_directories := []
    watches_by_path := []
    paths_by_watch := []
    removed_watches := [5]
    nextWd := 6 }

/-- Coalescer state with one already-processed event queued for delivery. -/
def dsOneProcessed : DelayState :=
  { incoming := [], ready := [], processed := [.FileCreated "/r/f"], timerRunning := false }

/-! Association-list and scan helper lemmas. -/

theorem lookupKey_eq_none {α β : Type} [DecidableEq α] (m : List (α × β)) (k : α) :
    lookupKey m k = none ↔ k ∉ m.map Prod.fst := by
  induction m with
  | nil => simp [lookupKey]
  | cons e r ih =>
    by_cases h : e.1 = k
    · simp [lookupKey, h]
    · simp [lookupKey, h, ih, Ne.symm h]

theorem lookupKey_mem {α β : Type} [DecidableEq α] (m : List (α × β)) (k : α) (v : β)
    (h : lookupKey m k = some v) : (k, v) ∈ m := by
  induction m with
  | nil => simp [lookupKey] at h
  | cons e r ih =>
    obtain ⟨e1, e2⟩ := e
    by_cases he : e1 = k
    · subst he
      simp only [lookupKey, if_pos] at h
      injection h with h
      subst h
      exact List.mem_cons_self _ _
    · simp only [lookupKey] at h
      rw [if_neg he] at h
      exact List.mem_cons_of_mem _ (ih h)

theorem mem_removeKey {α β : Type} [DecidableEq α] (m : List (α × β)) (k : α) (e : α × β) :
    e ∈ removeKey m k ↔ e ∈ m ∧ e.1 ≠ k := by
  simp [removeKey, List.mem_filter]

theorem removeKey_sublist {α β : Type} [DecidableEq α] (m : List (α × β)) (k : α) :
    List.Sublist (removeKey m k) m :=
  List.filter_sublist m

theorem mem_foldl_removeKey {α β γ : Type} [DecidableEq α] (g : γ → α) (l : List γ)
    (m : List (α × β)) (e : α × β) :
    e ∈ l.foldl (fun acc x => removeKey acc (g x)) m ↔ e ∈ m ∧ ∀ x ∈ l, e.1 ≠ g x := by
  induction l generalizing m with
  | nil => simp
  | cons x xs ih =>
    simp only [List.foldl_cons, ih, mem_removeKey, List.mem_cons]
    constructor
    · rintro ⟨⟨hm, hx⟩, hall⟩
      refine ⟨hm, ?_⟩
      rintro y (rfl | hy)
      · exact hx
      · exact hall y hy
    · rintro ⟨hm, hall⟩
      exact ⟨⟨hm, hall x (Or.inl rfl)⟩, fun y hy => hall y (Or.inr hy)⟩

theorem foldl_removeKey_sublist {α β γ : Type} [DecidableEq α] (g : γ → α) (l : List γ)
    (m : List (α × β)) :
    List.Sublist (l.foldl (fun acc x => removeKey acc (g x)) m) m := by
  induction l generalizing m with
  | nil => exact List.Sublist.refl m
  | cons x xs ih =>
    exact (ih (removeKey m (g x))).trans (removeKey_sublist m (g x))

theorem mem_foldl_insert {α γ : Type} [DecidableEq α] (g : γ → α) (l : List γ)
    (r : List α) (a : α) :
    a ∈ l.foldl (fun acc x => acc.insert (g x)) r ↔ a ∈ r ∨ ∃ x ∈ l, g x = a := by
  induction l generalizing r with
  | nil => simp
  | cons x xs ih =>
    simp only [List.foldl_cons, ih, List.mem_insert_iff, List.mem_cons]
    constructor
    · rintro ((rfl | hr) | ⟨y, hy, rfl⟩)
      · exact Or.inr ⟨x, Or.inl rfl, rfl⟩
      · exact Or.inl hr
      · exact Or.inr ⟨y, Or.inr hy, rfl⟩
    · rintro (hr | ⟨y, (rfl | hy), rfl⟩)
      · exact Or.inl (Or.inr hr)
      · exact Or.inl (Or.inl rfl)
      · exact Or.inr ⟨y, hy, rfl⟩

theorem collectSubtree_sublist (p : String) (l : List (String × Nat)) :
    List.Sublist (collectSubtree p l) l := by
  induction l with
  | nil => exact List.Sublist.refl []
  | cons e r ih =>
    by_cases h : pathStartsWith e.1 p
    · simpa [collectSubtree, h] using ih.cons₂ e
    · simp only [collectSubtree, h, Bool.false_eq_true, if_false]
      exact List.nil_sublist _

theorem mem_collectSubtree_startsWith (p : String) (l : List (String × Nat)) (e : String × Nat)
    (h : e ∈ collectSubtree p l) : pathStartsWith e.1 p = true := by
  induction l with
  | nil => simp [collectSubtree] at h
  | cons x r ih =>
    by_cases hx : pathStartsWith x.1 p
    · simp only [collectSubtree, hx, if_pos, List.mem_cons] at h
      rcases h with rfl | h
      · exact hx
      · exact ih h
    · simp [collectSubtree, hx] at h

theorem collectSubtree_eq_self (p : String) (l : List (String × Nat))
    (h : ∀ e ∈ l, pathStartsWith e.1 p = true) : collectSubtree p l = l := by
  induction l with
  | nil => rfl
  | cons e r ih =>
    simp only [collectSubtree, h e (List.mem_cons_self e r), if_pos]
    exact congrArg (e :: ·) (ih fun x hx => h x (List.mem_cons_of_mem e hx))

theorem dropWhile_eq_self_of_all {α : Type} (p : α → Bool) (l : List α)
    (h : ∀ a ∈ l, p a = false) : l.dropWhile p = l := by
  cases l with
  | nil => rfl
  | cons a r => simp [List.dropWhile, h a (List.mem_cons_self a r)]

theorem toDelete_subset (s : WState) (q : String) :
    ∀ e ∈ toDelete s q, e ∈ s.watches_by_path := by
  intro e he
  exact (List.dropWhile_sublist _).subset ((collectSubtree_sublist q _).subset he)

theorem nodup_map_inj {α β : Type} (f : α → β) (l : List α)
    (h : (l.map f).Nodup) {a b : α} (ha : a ∈ l) (hb : b ∈ l) (hf : f a = f b) : a = b :=
  List.inj_on_of_nodup_map h ha hb hf

theorem mem_insertStr (m : List (String × Nat)) (k : String) (v : Nat) (e : String × Nat)
    (h : e ∈ insertStr m k v) : e = (k, v) ∨ e ∈ m := by
  induction m with
  | nil => simpa [insertStr] using h
  | cons x r ih =>
    simp only [insertStr] at h
    split_ifs at h
    · rcases List.mem_cons.mp h with rfl | h'
      · exact Or.inl rfl
      · exact Or.inr h'
    · rcases List.mem_cons.mp h with rfl | h'
      · exact Or.inl rfl
      · exact Or.inr (List.mem_cons_of_mem x h')
    · rcases List.mem_cons.mp h with rfl | h'
      · exact Or.inr (List.mem_cons_self _ _)
      · rcases ih h' with rfl | h''
        · exact Or.inl rfl
        · exact Or.inr (List.mem_cons_of_mem x h'')

theorem self_mem_insertStr (m : List (String × Nat)) (k : String) (v : Nat) :
    (k, v) ∈ insertStr m k v := by
  induction m with
  | nil => simp [insertStr]
  | cons x r ih =>
    simp only [insertStr]
    split_ifs <;> simp [ih]

theorem mem_insertStr_of_mem (m : List (String × Nat)) (k : String) (v : Nat)
    (e : String × Nat) (h : e ∈ m) (hne : e.1 ≠ k) : e ∈ insertStr m k v := by
  induction m with
  | nil => simp at h
  | cons x r ih =>
    rcases List.mem_cons.mp h with rfl | h'
    · simp only [insertStr]
      split_ifs with h1
      · exact List.mem_cons_of_mem _ (List.mem_cons_self _ _)
      · exact List.mem_cons_self _ _
    · simp only [insertStr]
      split_ifs
      · exact List.mem_cons_of_mem _ (List.mem_cons_of_mem x h')
      · exact List.mem_cons_of_mem _ h'
      · exact List.mem_cons_of_mem x (ih h')

theorem mem_map_fst_insertStr (m : List (String × Nat)) (k : String) (v : Nat) (x : String)
    (h : x ∈ (insertStr m k v).map Prod.fst) : x = k ∨ x ∈ m.map Prod.fst := by
  rcases List.mem_map.mp h with ⟨e, he, rfl⟩
  rcases mem_insertStr m k v e he with rfl | he'
  · exact Or.inl rfl
  · exact Or.inr (List.mem_map_of_mem Prod.fst he')

theorem mem_map_snd_insertStr (m : List (String × Nat)) (k : String) (v : Nat) (y : Nat)
    (h : y ∈ (insertStr m k v).map Prod.snd) : y = v ∨ y ∈ m.map Prod.snd := by
  rcases List.mem_map.mp h with ⟨e, he, rfl⟩
  rcases mem_insertStr m k v e he with rfl | he'
  · exact Or.inl rfl
  · exact Or.inr (List.mem_map_of_mem Prod.snd he')

theorem insertStr_perm (m : List (String × Nat)) (k : String) (v : Nat)
    (hk : k ∉ m.map Prod.fst) :
    List.Perm (insertStr m k v) ((k, v) :: m) := by
  induction m with
  | nil => exact List.Perm.refl _
  | cons x r ih =>
    have hk1 : ¬ x.1 = k := by
      intro hkk
      exact hk (by simp [hkk.symm])
    have hk2 : k ∉ r.map Prod.fst := by
      intro hkk
      exact hk (by simp [hkk])
    simp only [insertStr]
    split_ifs with h1
    · exact List.Perm.refl _
    · exact ((ih hk2).cons x).trans (List.Perm.swap (k, v) x r)

theorem nodup_fst_insertStr (m : List (String × Nat)) (k : String) (v : Nat)
    (hk : k ∉ m.map Prod.fst) (h : (m.map Prod.fst).Nodup) :
    ((insertStr m k v).map Prod.fst).Nodup := by
  rw [((insertStr_perm m k v hk).map Prod.fst).nodup_iff]
  exact List.nodup_cons.mpr ⟨hk, h⟩

theorem nodup_snd_insertStr (m : List (String × Nat)) (k : String) (v : Nat)
    (hk : k ∉ m.map Prod.fst) (hv : v ∉ m.map Prod.snd) (h : (m.map Prod.snd).Nodup) :
    ((insertStr m k v).map Prod.snd).Nodup := by
  rw [((insertStr_perm m k v hk).map Prod.snd).nodup_iff]
  exact List.nodup_cons.mpr ⟨hv, h⟩

theorem mem_hmInsert {α β : Type} [DecidableEq α] (m : List (α × β)) (k : α) (v : β)
    (e : α × β) : e ∈ hmInsert m k v ↔ e = (k, v) ∨ (e ∈ m ∧ e.1 ≠ k) := by
  simp [hmInsert, mem_removeKey]

/-! Properties of `delete_watches`. -/

theorem mem_watches_delete (s : WState) (q : String) (e : String × Nat) :
    e ∈ (delete_watches s q).watches_by_path ↔
      e ∈ s.watches_by_path ∧ ∀ x ∈ toDelete s q, e.1 ≠ x.1 := by
  show e ∈ (toDelete s q).foldl (fun m x => removeKey m x.1) s.watches_by_path ↔ _
  exact mem_foldl_removeKey (fun x : String × Nat => x.1) (toDelete s q) s.watches_by_path e

theorem mem_paths_delete (s : WState) (q : String) (e : Nat × String) :
    e ∈ (delete_watches s q).paths_by_watch ↔
      e ∈ s.paths_by_watch ∧ ∀ x ∈ toDelete s q, e.1 ≠ x.2 := by
  show e ∈ (toDelete s q).foldl (fun m x => removeKey m x.2) s.paths_by_watch ↔ _
  exact mem_foldl_removeKey (fun x : String × Nat => x.2) (toDelete s q) s.paths_by_watch e

theorem mem_removed_delete (s : WState) (q : String) (a : Nat) :
    a ∈ (delete_watches s q).removed_watches ↔
      a ∈ s.removed_watches ∨ ∃ x ∈ toDelete s q, x.2 = a := by
  show a ∈ (toDelete s q).foldl (fun r x => r.insert x.2) s.removed_watches ↔ _
  exact mem_foldl_insert (fun x : String × Nat => x.2) (toDelete s q) s.removed_watches a

theorem toDelete_startsWith (s : WState) (q : String) :
    ∀ e ∈ toDelete s q, pathStartsWith e.1 q = true := fun e he =>
  mem_collectSubtree_startsWith q _ e he

/-! Preservation of the watch-tree invariant. -/

theorem Inv_erase (s : WState) (h : Inv s) (w : Nat) :
    Inv { s with removed_watches := s.removed_watches.erase w } := by
  obtain ⟨h1, h2, h3, h4, h5, h6⟩ := h
  exact ⟨h1, h2, h3, h4, h5, fun wd hwd e he => h6 wd (List.mem_of_mem_erase hwd) e he⟩

theorem Inv_delete_watches (s : WState) (h : Inv s) (q : String) :
    Inv (delete_watches s q) := by
  obtain ⟨hfstN, hsndN, hpfstN, hwp, hpw, hdisj⟩ := h
  have hsubW : List.Sublist (delete_watches s q).watches_by_path s.watches_by_path :=
    foldl_removeKey_sublist (fun x : String × Nat => x.1) (toDelete s q) s.watches_by_path
  have hsubP : List.Sublist (delete_watches s q).paths_by_watch s.paths_by_watch :=
    foldl_removeKey_sublist (fun x : String × Nat => x.2) (toDelete s q) s.paths_by_watch
  refine ⟨?_, ?_, ?_, ?_, ?_, ?_⟩
  · exact hfstN.sublist (hsubW.map Prod.fst)
  · exact hsndN.sublist (hsubW.map Prod.snd)
  · exact hpfstN.sublist (hsubP.map Prod.fst)
  · intro e he
    obtain ⟨hem, hkeys⟩ := (mem_watches_delete s q e).mp he
    refine (mem_paths_delete s q (e.2, e.1)).mpr ⟨hwp e hem, ?_⟩
    intro x hx hc
    have hxw := toDelete_subset s q x hx
    have hxe : x = e := nodup_map_inj Prod.snd s.watches_by_path hsndN hxw hem hc.symm
    exact hkeys x hx (by rw [hxe])
  · intro e he
    obtain ⟨hem, hkeys⟩ := (mem_paths_delete s q e).mp he
    refine (mem_watches_delete s q (e.2, e.1)).mpr ⟨hpw e hem, ?_⟩
    intro x hx hc
    have hxw := toDelete_subset s q x hx
    have hxe : x = (e.2, e.1) :=
      nodup_map_inj Prod.fst s.watches_by_path hfstN hxw (hpw e hem) hc.symm
    exact hkeys x hx (by rw [hxe])
  · intro wd hwd e he
    obtain ⟨hem, hkeys⟩ := (mem_paths_delete s q e).mp he
    rcases (mem_removed_delete s q wd).mp hwd with hold | ⟨x, hx, rfl⟩
    · exact hdisj wd hold e hem
    · exact hkeys x hx

theorem Inv_really (s : WState) (h : Inv s) : Inv (really_delete_watches s) := by
  obtain ⟨h1, h2, h3, h4, h5, _⟩ := h
  exact ⟨h1, h2, h3, h4, h5, by simp [really_delete_watches]⟩

theorem Inv_install (s : WState) (h : Inv s) (d : String) (wd : Nat) (subs : List String)
    (hd : lookupKey s.watches_by_path d = none)
    (hwd : lookupKey s.paths_by_watch wd = none)
    (hrm : wd ∉ s.removed_watches) :
    Inv (install_watch s d wd subs) := by
  obtain ⟨hfstN, hsndN, hpfstN, hwp, hpw, hdisj⟩ := h
  have hdf : d ∉ s.watches_by_path.map Prod.fst := (lookupKey_eq_none _ _).mp hd
  have hwf : wd ∉ s.paths_by_watch.map Prod.fst := (lookupKey_eq_none _ _).mp hwd
  have hws : wd ∉ s.watches_by_path.map Prod.snd := by
    intro hmem
    rcases List.mem_map.mp hmem with ⟨e, he, hee⟩
    exact hwf (List.mem_map.mpr ⟨(e.2, e.1), hwp e he, hee⟩)
  have hds : d ∉ s.paths_by_watch.map Prod.snd := by
    intro hmem
    rcases List.mem_map.mp hmem with ⟨e, he, hee⟩
    exact hdf (List.mem_map.mpr ⟨(e.2, e.1), hpw e he, hee⟩)
  refine ⟨?_, ?_, ?_, ?_, ?_, ?_⟩
  · exact nodup_fst_insertStr _ d wd hdf hfstN
  · exact nodup_snd_insertStr _ d wd hdf hws hsndN
  · show ((hmInsert s.paths_by_watch wd d).map Prod.fst).Nodup
    refine List.nodup_cons.mpr ⟨?_, ?_⟩
    · intro hmem
      rcases List.mem_map.mp hmem with ⟨e, he, hee⟩
      exact ((mem_removeKey _ _ _).mp he).2 hee
    · exact hpfstN.sublist ((removeKey_sublist _ _).map Prod.fst)
  · intro e he
    rcases mem_insertStr _ _ _ e he with rfl | he'
    · exact List.mem_cons_self _ _
    · have hne : e.2 ≠ wd := fun hc => hws (List.mem_map.mpr ⟨e, he', hc⟩)
      exact List.mem_cons_of_mem _ ((mem_removeKey _ _ _).mpr ⟨hwp e he', hne⟩)
  · intro e he
    rcases List.mem_cons.mp he with rfl | he'
    · exact self_mem_insertStr _ _ _
    · have hpm := (mem_removeKey _ _ _).mp he'
      have hne : e.2 ≠ d := fun hc => hds (List.mem_map.mpr ⟨e, hpm.1, hc⟩)
      exact mem_insertStr_of_mem _ _ _ _ (hpw e hpm.1) hne
  · intro w hw e he
    rcases List.mem_cons.mp he with rfl | he'
    · intro hc
      have hc' : wd = w := hc
      exact hrm (by rw [hc']; exact hw)
    · exact hdisj w hw e ((mem_removeKey _ _ _).mp he').1

theorem Inv_queue (s : WState) (h : Inv s) (q : List String) :
    Inv { s with new_directories := q } := by
  obtain ⟨h1, h2, h3, h4, h5, h6⟩ := h
  exact ⟨h1, h2, h3, h4, h5, h6⟩

theorem translateActive_cases (s : WState) (ev : RawRecord) (d : String) :
    translateActive s ev d = (none, s) ∨
    (∃ p, translateActive s ev d = (some (.FileCreated p), s)) ∨
    (∃ p, translateActive s ev d = (some (.FileModified p), s)) ∨
    (∃ p, translateActive s ev d = (some (.FileRemoved p), s)) ∨
    (∃ p, translateActive s ev d =
      (some (.DirectoryCreated p), { s with new_directories := s.new_directories ++ [p] })) ∨
    (∃ p, translateActive s ev d = (some (.DirectoryRemoved p), delete_watches s p)) ∨
    translateActive s ev d = (some (.Stopped .DirectoryRemoved), delete_watches s s.root_dir) := by
  unfold translateActive
  by_cases c1 : ev.mask = maskCREATE ∧ ev.name.isSome = true
  · rw [if_pos c1]
    exact Or.inr (Or.inl ⟨_, rfl⟩)
  rw [if_neg c1]
  by_cases c2 : ev.mask = maskMODIFY ∧ ev.name.isSome = true
  · rw [if_pos c2]
    exact Or.inr (Or.inr (Or.inl ⟨_, rfl⟩))
  rw [if_neg c2]
  by_cases c3 : ev.mask = maskATTRIB ∧ ev.name.isSome = true
  · rw [if_pos c3]
    exact Or.inr (Or.inr (Or.inl ⟨_, rfl⟩))
  rw [if_neg c3]
  by_cases c4 : ev.mask = maskDELETE ∧ ev.name.isSome = true
  · rw [if_pos c4]
    exact Or.inr (Or.inr (Or.inr (Or.inl ⟨_, rfl⟩)))
  rw [if_neg c4]
  by_cases c5 : ev.mask = maskMOVED_FROM ∧ ev.name.isSome = true
  · rw [if_pos c5]
    exact Or.inr (Or.inr (Or.inr (Or.inl ⟨_, rfl⟩)))
  rw [if_neg c5]
  by_cases c6 : ev.mask = maskMOVED_TO ∧ ev.name.isSome = true
  · rw [if_pos c6]
    exact Or.inr (Or.inl ⟨_, rfl⟩)
  rw [if_neg c6]
  by_cases c7 : ev.mask = maskCREATE_DIR ∧ ev.name.isSome = true
  · rw [if_pos c7]
    exact Or.inr (Or.inr (Or.inr (Or.inr (Or.inl ⟨_, rfl⟩))))
  rw [if_neg c7]
  by_cases c8 : ev.mask = maskDELETE_DIR ∧ ev.name.isSome = true
  · rw [if_pos c8]
    exact Or.inr (Or.inr (Or.inr (Or.inr (Or.inr (Or.inl ⟨_, rfl⟩)))))
  rw [if_neg c8]
  by_cases c9 : ev.mask = maskMOVED_FROM_DIR ∧ ev.name.isSome = true
  · rw [if_pos c9]
    exact Or.inr (Or.inr (Or.inr (Or.inr (Or.inr (Or.inl ⟨_, rfl⟩)))))
  rw [if_neg c9]
  by_cases c10 : ev.mask = maskMOVED_TO_DIR ∧ ev.name.isSome = true
  · rw [if_pos c10]
    exact Or.inr (Or.inr (Or.inr (Or.inr (Or.inl ⟨_, rfl⟩))))
  rw [if_neg c10]
  by_cases c11 : ev.mask = maskDELETE_SELF
  · rw [if_pos c11]
    by_cases c12 : eventPath d ev.name = s.root_dir
    · rw [if_pos c12, c12]
      exact Or.inr (Or.inr (Or.inr (Or.inr (Or.inr (Or.inr rfl)))))
    · rw [if_neg c12]
      exact Or.inl rfl
  rw [if_neg c11]
  by_cases c13 : ev.mask = maskIGNORED
  · rw [if_pos c13]
    exact Or.inl rfl
  · rw [if_neg c13]
    exact Or.inl rfl

theorem translateActive_inv (s : WState) (ev : RawRecord) (d : String) (h : Inv s) :
    Inv (translateActive s ev d).2 := by
  rcases translateActive_cases s ev d with hc | ⟨p, hc⟩ | ⟨p, hc⟩ | ⟨p, hc⟩ | ⟨p, hc⟩ |
    ⟨p, hc⟩ | hc <;> rw [hc]
  · exact h
  · exact h
  · exact h
  · exact h
  · exact Inv_queue s h _
  · exact Inv_delete_watches s h p
  · exact Inv_delete_watches s h s.root_dir

theorem Inv_translate (s : WState) (h : Inv s) (ev : RawRecord) : Inv (translate s ev).2 := by
  unfold translate
  by_cases h1 : ev.wd ∈ s.removed_watches
  · rw [if_pos h1]
    by_cases h2 : ev.mask = maskIGNORED
    · rw [if_pos h2]
      exact Inv_erase s h ev.wd
    · rw [if_neg h2]
      exact h
  · rw [if_neg h1]
    rcases hl : lookupKey s.paths_by_watch ev.wd with _ | d
    · exact h
    · exact translateActive_inv s ev d h

theorem translate_paths_nil (s : WState) (ev : RawRecord) (h : s.paths_by_watch = []) :
    (translate s ev).1 = none ∧ (translate s ev).2.paths_by_watch = [] ∧
    (translate s ev).2.new_directories = s.new_directories := by
  unfold translate
  by_cases h1 : ev.wd ∈ s.removed_watches
  · rw [if_pos h1]
    by_cases h2 : ev.mask = maskIGNORED
    · rw [if_pos h2]
      exact ⟨rfl, h, rfl⟩
    · rw [if_neg h2]
      exact ⟨rfl, h, rfl⟩
  · rw [if_neg h1, h]
    exact ⟨rfl, h, rfl⟩

theorem delete_watches_all (s : WState)
    (hge : ∀ e ∈ s.watches_by_path, strLt e.1 s.root_dir = false)
    (hpre : ∀ e ∈ s.watches_by_path, pathStartsWith e.1 s.root_dir = true)
    (hpw : ∀ e ∈ s.paths_by_watch, (e.2, e.1) ∈ s.watches_by_path) :
    (delete_watches s s.root_dir).paths_by_watch = [] := by
  have htd : toDelete s s.root_dir = s.watches_by_path := by
    rw [toDelete, dropWhile_eq_self_of_all _ _ hge]
    exact collectSubtree_eq_self _ _ hpre
  rw [List.eq_nil_iff_forall_not_mem]
  intro e he
  obtain ⟨hem, hkeys⟩ := (mem_paths_delete s s.root_dir e).mp he
  exact hkeys (e.2, e.1) (htd ▸ hpw e hem) rfl

theorem translateActive_stopped (s : WState) (ev : RawRecord) (d : String) (reason : StopReason)
    (h : (translateActive s ev d).1 = some (.Stopped reason)) :
    (translateActive s ev d).2 = delete_watches s s.root_dir := by
  rcases translateActive_cases s ev d with hc | ⟨p, hc⟩ | ⟨p, hc⟩ | ⟨p, hc⟩ | ⟨p, hc⟩ |
    ⟨p, hc⟩ | hc <;> rw [hc] at h ⊢ <;> simp_all

theorem translate_stopped (s : WState) (ev : RawRecord) (reason : StopReason)
    (h : (translate s ev).1 = some (.Stopped reason)) :
    (translate s ev).2 = delete_watches s s.root_dir := by
  unfold translate at h ⊢
  by_cases h1 : ev.wd ∈ s.removed_watches
  · rw [if_pos h1] at h ⊢
    by_cases h2 : ev.mask = maskIGNORED
    · rw [if_pos h2] at h
      exact absurd h (by simp)
    · rw [if_neg h2] at h
      exact absurd h (by simp)
  · rw [if_neg h1] at h ⊢
    rcases hl : lookupKey s.paths_by_watch ev.wd with _ | d <;> rw [hl] at h
    · exact absurd h (by simp)
    · exact translateActive_stopped s ev d reason h

theorem translateActive_allowed (s : WState) (ev : RawRecord) (d : String)
    (e : FileSystemEvent) (h : (translateActive s ev d).1 = some e) :
    allowedEvent e = true := by
  rcases translateActive_cases s ev d with hc | ⟨p, hc⟩ | ⟨p, hc⟩ | ⟨p, hc⟩ | ⟨p, hc⟩ |
    ⟨p, hc⟩ | hc <;> rw [hc] at h
  · exact absurd h (by simp)
  all_goals
    obtain rfl := Option.some.inj h
    rfl

theorem translate_allowed (s : WState) (ev : RawRecord) (e : FileSystemEvent)
    (h : (translate s ev).1 = some e) : allowedEvent e = true := by
  unfold translate at h
  by_cases h1 : ev.wd ∈ s.removed_watches
  · rw [if_pos h1] at h
    by_cases h2 : ev.mask = maskIGNORED
    · rw [if_pos h2] at h
      exact absurd h (by simp)
    · rw [if_neg h2] at h
      exact absurd h (by simp)
  · rw [if_neg h1] at h
    rcases hl : lookupKey s.paths_by_watch ev.wd with _ | d <;> rw [hl] at h
    · exact absurd h (by simp)
    · exact translateActive_allowed s ev d e h

/-! Properties of the poll loop. -/

theorem drainLoop_ops_extend (s : WState) (buf : List RawItem) (ops : List (Op × Nat)) :
    ∃ l, (drainLoop s buf ops).ops = ops ++ l := by
  induction buf generalizing s ops with
  | nil => exact ⟨[(.drain, 0), (.release, 0)], rfl⟩
  | cons item rest ih =>
    cases item with
    | err => exact ⟨[(.drain, rest.length + 1)], rfl⟩
    | ok r =>
      rcases ht : translate s r with ⟨oe, s'⟩
      cases oe with
      | some e =>
        simp only [drainLoop, ht]
        exact ⟨[(.drain, rest.length + 1)], rfl⟩
      | none =>
        simp only [drainLoop, ht]
        rcases ih s' (ops ++ [(.drain, rest.length + 1)]) with ⟨l, hl⟩
        exact ⟨[(.drain, rest.length + 1)] ++ l, by rw [hl, List.append_assoc]⟩

theorem installGo_ops_extend (fs : Fs) (q : List String) (s : WState) (buf : List RawItem)
    (ops : List (Op × Nat)) :
    ∃ l, (installGo fs q s buf ops).ops = ops ++ l := by
  induction q generalizing s ops with
  | nil => exact drainLoop_ops_extend s buf ops
  | cons d qrest ih =>
    by_cases h1 : fs.isDir d
    · by_cases h2 : fs.addWatchOk d
      · simp only [installGo, if_pos h1, if_pos h2]
        exact ⟨[(.install, buf.length)], rfl⟩
      · simp only [installGo, if_pos h1, if_neg h2]
        exact ⟨[(.install, buf.length)], rfl⟩
    · simp only [installGo, if_neg h1]
      rcases ih { s with new_directories := qrest } (ops ++ [(.install, buf.length)]) with ⟨l, hl⟩
      exact ⟨[(.install, buf.length)] ++ l, by rw [hl, List.append_assoc]⟩

theorem ops_snoc_release (ops : List (Op × Nat)) (x : Op × Nat)
    (h : ∀ p ∈ ops, p.1 = Op.release → p.2 = 0)
    (hx : x.1 = Op.release → x.2 = 0) :
    ∀ p ∈ ops ++ [x], p.1 = Op.release → p.2 = 0 := by
  intro p hp
  rcases List.mem_append.mp hp with hp | hp
  · exact h p hp
  · simp only [List.mem_singleton] at hp
    subst hp
    exact hx

theorem drainLoop_release (s : WState) (buf : List RawItem) (ops : List (Op × Nat))
    (h : ∀ p ∈ ops, p.1 = Op.release → p.2 = 0) :
    ∀ p ∈ (drainLoop s buf ops).ops, p.1 = Op.release → p.2 = 0 := by
  induction buf generalizing s ops with
  | nil =>
    intro p hp hr
    simp only [drainLoop] at hp
    rcases List.mem_append.mp hp with hp | hp
    · exact h p hp hr
    · simp only [List.mem_cons, List.mem_singleton] at hp
      rcases hp with rfl | rfl | hfalse
      · rfl
      · rfl
      · exact absurd hfalse (List.not_mem_nil p)
  | cons item rest ih =>
    cases item with
    | err =>
      exact ops_snoc_release ops _ h (fun hr => Op.noConfusion hr)
    | ok r =>
      rcases ht : translate s r with ⟨oe, s'⟩
      cases oe with
      | some e =>
        intro p hp hr
        simp only [drainLoop, ht] at hp
        exact ops_snoc_release ops _ h (fun hc => Op.noConfusion hc) p hp hr
      | none =>
        intro p hp hr
        simp only [drainLoop, ht] at hp
        exact ih s' _ (ops_snoc_release ops _ h (fun hc => Op.noConfusion hc)) p hp hr

theorem installGo_release (fs : Fs) (q : List String) (s : WState) (buf : List RawItem)
    (ops : List (Op × Nat)) (h : ∀ p ∈ ops, p.1 = Op.release → p.2 = 0) :
    ∀ p ∈ (installGo fs q s buf ops).ops, p.1 = Op.release → p.2 = 0 := by
  induction q generalizing s ops with
  | nil => exact drainLoop_release s buf ops h
  | cons d qrest ih =>
    by_cases h1 : fs.isDir d
    · by_cases h2 : fs.addWatchOk d
      · intro p hp hr
        simp only [installGo, if_pos h1, if_pos h2] at hp
        exact ops_snoc_release ops _ h (fun hc => Op.noConfusion hc) p hp hr
      · intro p hp hr
        simp only [installGo, if_pos h1, if_neg h2] at hp
        exact ops_snoc_release ops _ h (fun hc => Op.noConfusion hc) p hp hr
    · intro p hp hr
      simp only [installGo, if_neg h1] at hp
      exact ih { s with new_directories := qrest } _
        (ops_snoc_release ops _ h (fun hc => Op.noConfusion hc)) p hp hr

theorem drainLoop_dead (s : WState) (buf : List RawItem) (ops : List (Op × Nat))
    (hs : s.paths_by_watch = []) (hok : ∀ i ∈ buf, i ≠ RawItem.err) :
    (drainLoop s buf ops).outcome = PollOutcome.pending ∧
    (drainLoop s buf ops).state.paths_by_watch = [] ∧
    (drainLoop s buf ops).state.new_directories = s.new_directories ∧
    (drainLoop s buf ops).buf = [] := by
  induction buf generalizing s ops with
  | nil => exact ⟨rfl, hs, rfl, rfl⟩
  | cons item rest ih =>
    cases item with
    | err => exact absurd rfl (hok .err (List.mem_cons_self _ _))
    | ok r =>
      obtain ⟨h1, h2, h3⟩ := translate_paths_nil s r hs
      rcases ht : translate s r with ⟨oe, s'⟩
      rw [ht] at h1 h2 h3
      obtain rfl : oe = none := h1
      simp only [drainLoop, ht]
      obtain ⟨g1, g2, g3, g4⟩ :=
        ih s' (ops ++ [(.drain, rest.length + 1)]) h2
          (fun i hi => hok i (List.mem_cons_of_mem _ hi))
      exact ⟨g1, g2, g3.trans h3, g4⟩

theorem drainLoop_allowed (s : WState) (buf : List RawItem) (ops : List (Op × Nat))
    (e : FileSystemEvent) (h : (drainLoop s buf ops).outcome = PollOutcome.event e) :
    allowedEvent e = true := by
  induction buf generalizing s ops with
  | nil => exact absurd h (by simp [drainLoop])
  | cons item rest ih =>
    cases item with
    | err =>
      obtain rfl : FileSystemEvent.Error = e := by simpa [drainLoop] using h
      rfl
    | ok r =>
      rcases ht : translate s r with ⟨oe, s'⟩
      cases oe with
      | some e' =>
        simp only [drainLoop, ht] at h
        have he : e' = e := by simpa using h
        rw [← he]
        exact translate_allowed s r e' (by rw [ht])
      | none =>
        simp only [drainLoop, ht] at h
        exact ih s' _ h

theorem installGo_allowed (fs : Fs) (q : List String) (s : WState) (buf : List RawItem)
    (ops : List (Op × Nat)) (e : FileSystemEvent)
    (h : (installGo fs q s buf ops).outcome = PollOutcome.event e) :
    allowedEvent e = true := by
  induction q generalizing s ops with
  | nil => exact drainLoop_allowed s buf ops e h
  | cons d qrest ih =>
    by_cases h1 : fs.isDir d
    · by_cases h2 : fs.addWatchOk d
      · simp only [installGo, if_pos h1, if_pos h2] at h
        obtain rfl : FileSystemEvent.DirectoryWatched d = e := by simpa using h
        rfl
      · simp only [installGo, if_pos h1, if_neg h2] at h
        obtain rfl : FileSystemEvent.Error = e := by simpa using h
        rfl
    · simp only [installGo, if_neg h1] at h
      exact ih { s with new_directories := qrest } _ h

/-! Properties of the coalescer. -/

theorem delay_emit_src (s3 : DelayState) (e : FileSystemEvent) (ds' : DelayState)
    (h : delay_emit s3 = DelayPollResult.event e ds') : e ∈ s3.processed := by
  unfold delay_emit at h
  by_cases hr : s3.ready = []
  · rw [if_pos hr] at h
    rcases hp : s3.processed with _ | ⟨e0, rest⟩ <;> rw [hp] at h
    · exact absurd h (by simp)
    · injection h with h1 h2
      rw [← h1]
      exact List.mem_cons_self _ _
  · rw [if_neg hr] at h
    rcases hp : s3.processed with _ | ⟨e0, rest⟩ <;> rw [hp] at h
    · exact absurd h (by simp)
    · injection h with h1 h2
      rw [← h1]
      exact List.mem_cons_self _ _

theorem delay_event_src (ds : DelayState) (inp : List FileSystemEvent) (t : Bool)
    (e : FileSystemEvent) (ds' : DelayState)
    (h : delay_poll_next ds inp t = DelayPollResult.event e ds') :
    e ∈ ds.processed ∨ e ∈ ds.ready := by
  unfold delay_poll_next at h
  rcases hp : ds.processed with _ | ⟨e0, rest⟩ <;> rw [hp] at h
  · unfold delay_idle at h
    by_cases htr : (delay_arm (delay_fill ds inp)).timerRunning = false
    · rw [if_pos htr] at h
      exact absurd h (by simp)
    · rw [if_neg htr] at h
      by_cases ht : t = true
      · rw [if_pos ht] at h
        have hsrc := delay_emit_src _ e ds' h
        have harm_p : (delay_arm (delay_fill ds inp)).processed = ds.processed := by
          unfold delay_arm delay_fill
          split_ifs <;> rfl
        have harm_r : (delay_arm (delay_fill ds inp)).ready = ds.ready := by
          unfold delay_arm delay_fill
          split_ifs <;> rfl
        have hproc : (process_events (delay_arm (delay_fill ds inp))).processed =
            ds.processed ++ ds.ready := by
          show (delay_arm (delay_fill ds inp)).processed ++
            (delay_arm (delay_fill ds inp)).ready = ds.processed ++ ds.ready
          rw [harm_p, harm_r]
        rw [hproc, hp] at hsrc
        exact Or.inr (by simpa using hsrc)
      · rw [if_neg ht] at h
        exact absurd h (by simp)
  · injection h with h1 h2
    rw [← h1]
    exact Or.inl (List.mem_cons_self _ _)

/-! Claim theorems. -/

/-- C1 (counterexample): the spec claims neither `really_delete_watches` nor
the installation of a pending watch happens while the stream still buffers a
record.  On a freshly created watcher (pending queue `["/r"]`) polled with
one buffered record, `poll_next` installs the watch immediately: the ordering
predicate fails, because installation is logged with one record still
buffered. -/
theorem c1_counterexample :
    ¬ orderingClaim
      (pollNext fsAll sFresh [RawItem.ok { wd := 0, name := none, mask := maskIGNORED }]) := by
  decide

/-- C1 (amended): `really_delete_watches` runs only once draining has
returned "would block" (every `release` entry in the operation log sees an
empty buffer), while a non-empty pending queue makes `poll_next` run
`install_next_pending` first, before any draining, regardless of how many
records are buffered. -/
theorem c1_release_after_drain :
    (∀ fs s buf, ∀ p ∈ (pollNext fs s buf).ops, p.1 = Op.release → p.2 = 0) ∧
    (∀ fs s buf d t, s.new_directories = d :: t →
      (pollNext fs s buf).ops.head? = some (Op.install, buf.length)) := by
  constructor
  · intro fs s buf
    exact installGo_release fs s.new_directories s buf []
      (fun p hp => absurd hp (List.not_mem_nil p))
  · intro fs s buf d t hq
    unfold pollNext
    rw [hq]
    by_cases h1 : fs.isDir d
    · by_cases h2 : fs.addWatchOk d
      · simp only [installGo, if_pos h1, if_pos h2]
        rfl
      · simp only [installGo, if_pos h1, if_neg h2]
        rfl
    · simp only [installGo, if_neg h1, List.nil_append]
      rcases installGo_ops_extend fs t { s with new_directories := t } buf
        [(.install, buf.length)] with ⟨l, hl⟩
      rw [hl]
      rfl

/-- C1 (witness): on a concrete fresh watcher the first logged operation is
the installation (with one record still buffered), and on a drained
root-watched state the release entry is logged with an empty buffer. -/
theorem c1_witness :
    (pollNext fsAll sFresh [RawItem.ok { wd := 0, name := none, mask := maskIGNORED }]).ops.head?
        = some (Op.install, 1) ∧ (0 : Nat) = 0 :=
  ⟨c1_release_after_drain.2 fsAll sFresh _ "/r" [] rfl,
   c1_release_after_drain.1 fsAll sRootOnly
     [RawItem.ok { wd := 7, name := none, mask := maskIGNORED }]
     (Op.release, 0) (by decide) rfl⟩

/-- C2 (counterexample): `delete_watches "/r/a"` on a sorted map containing
"/r/a", "/r/a.b" and "/r/a/c" stops its scan at the non-descendant "/r/a.b",
so the genuine descendant "/r/a/c" stays in the active mapping, and the
descendant "/r/a/d" sitting in the pending queue is not removed either —
contradicting the claim that every descendant entry is moved and purged from
the pending queue. -/
theorem c2_counterexample :
    pathStartsWith "/r/a/c" "/r/a" = true ∧
    lookupKey (delete_watches sSubtree "/r/a").watches_by_path "/r/a/c" = some 3 ∧
    pathStartsWith "/r/a/d" "/r/a" = true ∧
    (delete_watches sSubtree "/r/a").new_directories = ["/r/a/d"] := by
  decide

/-- C2 (amended): `delete_watches p` never touches the pending queue; an
entry whose path is not a descendant of `p` is never moved; every entry it
does move is a descendant of `p`, lands in the pending-release set and
disappears from the handle-to-path direction — but only the contiguous
initial run of descendants at keys at or after `p` is moved, so descendants
sorting after an interleaved non-descendant survive. -/
theorem c2_delete_watches_spec (s : WState) (q : String) :
    (delete_watches s q).new_directories = s.new_directories ∧
    (∀ e ∈ s.watches_by_path, pathStartsWith e.1 q = false →
      e ∈ (delete_watches s q).watches_by_path) ∧
    (∀ e ∈ s.watches_by_path, e ∉ (delete_watches s q).watches_by_path →
      pathStartsWith e.1 q = true) ∧
    ((s.watches_by_path.map Prod.fst).Nodup →
      ∀ e ∈ s.watches_by_path, e ∉ (delete_watches s q).watches_by_path →
        e.2 ∈ (delete_watches s q).removed_watches ∧
        lookupKey (delete_watches s q).paths_by_watch e.2 = none) := by
  have hstay : ∀ e ∈ s.watches_by_path, pathStartsWith e.1 q = false →
      e ∈ (delete_watches s q).watches_by_path := by
    intro e he hns
    refine (mem_watches_delete s q e).mpr ⟨he, ?_⟩
    intro x hx hc
    have hsw := toDelete_startsWith s q x hx
    rw [← hc] at hsw
    rw [hns] at hsw
    exact Bool.noConfusion hsw
  refine ⟨rfl, hstay, ?_, ?_⟩
  · intro e he hnot
    cases hsw : pathStartsWith e.1 q with
    | true => rfl
    | false => exact absurd (hstay e he hsw) hnot
  · intro hnd e he hnot
    have hx : ∃ x ∈ toDelete s q, e.1 = x.1 := by
      by_contra hno
      push_neg at hno
      exact hnot ((mem_watches_delete s q e).mpr ⟨he, hno⟩)
    rcases hx with ⟨x, hxmem, hxeq⟩
    have hxw := toDelete_subset s q x hxmem
    have hxe : x = e := nodup_map_inj Prod.fst s.watches_by_path hnd hxw he hxeq.symm
    constructor
    · exact (mem_removed_delete s q e.2).mpr (Or.inr ⟨x, hxmem, by rw [hxe]⟩)
    · rw [lookupKey_eq_none]
      intro hmem
      rcases List.mem_map.mp hmem with ⟨y, hy, hyfst⟩
      obtain ⟨hymem, hykeys⟩ := (mem_paths_delete s q y).mp hy
      exact hykeys x hxmem (by rw [hyfst, hxe])

/-- C2 (witness): on the concrete interleaved state, the pending queue is
untouched and the non-descendant "/r/a.b" keeps its active watch. -/
theorem c2_witness :
    (delete_watches sSubtree "/r/a").new_directories = sSubtree.new_directories ∧
    ("/r/a.b", 2) ∈ (delete_watches sSubtree "/r/a").watches_by_path :=
  ⟨(c2_delete_watches_spec sSubtree "/r/a").1,
   (c2_delete_watches_spec sSubtree "/r/a").2.1 ("/r/a.b", 2) (by decide) (by decide)⟩

/-- C3 (confirmed): the watch-tree invariant — both directions of the active
mapping are duplicate-free and mutually inverse (a bijection on active
watches) and no pending-release handle is also active — is preserved by
event translation, by subtree removal, by physical release, and by watch
installation whenever the kernel-supplied handle is fresh and the installed
path is not already watched. -/
theorem c3_invariant_preserved (s : WState) (h : Inv s) :
    (∀ ev, Inv (translate s ev).2) ∧
    (∀ q, Inv (delete_watches s q)) ∧
    Inv (really_delete_watches s) ∧
    (∀ d wd subs, lookupKey s.watches_by_path d = none →
      lookupKey s.paths_by_watch wd = none → wd ∉ s.removed_watches →
      Inv (install_watch s d wd subs)) :=
  ⟨fun ev => Inv_translate s h ev,
   fun q => Inv_delete_watches s h q,
   Inv_really s h,
   fun d wd subs h1 h2 h3 => Inv_install s h d wd subs h1 h2 h3⟩

/-- C3 (witness): the invariant holds on a concrete root-watched state and is
preserved there by a subtree removal and by the installation of a fresh
subdirectory watch. -/
theorem c3_witness :
    Inv sRootOnly ∧ Inv (delete_watches sRootOnly "/r") ∧
    Inv (install_watch sRootOnly "/r/sub" 1 []) :=
  ⟨by decide,
   (c3_invariant_preserved sRootOnly (by decide)).2.1 "/r",
   (c3_invariant_preserved sRootOnly (by decide)).2.2.2 "/r/sub" 1 []
     (by decide) (by decide) (by decide)⟩

/-- C4 (code bug): the coalescer's combination step is an unimplemented TODO;
on a ready batch holding `FileRemoved "/r/a.txt"` followed by
`FileCreated "/r/b.txt"` it forwards both events unchanged instead of
replacing them by a single `Moved` event (no `Moved`-like event is ever
constructed anywhere in the crate). -/
theorem c4_no_combination :
    process_events
      { incoming := [],
        ready := [.FileRemoved "/r/a.txt", .FileCreated "/r/b.txt"],
        processed := [], timerRunning := true } =
    { incoming := [], ready := [],
      processed := [.FileRemoved "/r/a.txt", .FileCreated "/r/b.txt"],
      timerRunning := true } := rfl

/-- C5 (code bug): polling the coalescer in the idle state (no processed
events, both batches empty, no timer running) while the source has nothing
ready reaches `timer.as_mut().unwrap()` with `timer == None` and panics,
instead of returning `Poll::Pending`. -/
theorem c5_panics :
    delay_poll_next { incoming := [], ready := [], processed := [], timerRunning := false }
        [] false = DelayPollResult.panicked ∧
    delay_poll_next { incoming := [], ready := [], processed := [], timerRunning := false }
        [] true = DelayPollResult.panicked :=
  ⟨rfl, rfl⟩

/-- C6 (confirmed): when translation emits `Stopped` (root removal) from a
state whose watched paths all lie under the root and whose pending queue is
empty, the resulting state is dead (no active watches, nothing pending); and
polling a dead watcher never yields an event, whatever raw records are still
buffered or arrive later. -/
theorem c6_stopped_then_silent :
    (∀ s ev reason,
      (∀ e ∈ s.watches_by_path,
        pathStartsWith e.1 s.root_dir = true ∧ strLt e.1 s.root_dir = false) →
      (∀ e ∈ s.paths_by_watch, (e.2, e.1) ∈ s.watches_by_path) →
      s.new_directories = [] →
      (translate s ev).1 = some (.Stopped reason) →
      deadState (translate s ev).2) ∧
    (∀ fs s buf, deadState s → (∀ i ∈ buf, i ≠ RawItem.err) →
      (pollNext fs s buf).outcome = PollOutcome.pending ∧
      deadState (pollNext fs s buf).state) := by
  constructor
  · intro s ev reason hroot hpw hq hstop
    rw [translate_stopped s ev reason hstop]
    refine ⟨?_, ?_⟩
    · exact delete_watches_all s (fun e he => (hroot e he).2) (fun e he => (hroot e he).1) hpw
    · exact hq
  · intro fs s buf hdead hok
    obtain ⟨hp, hq⟩ := hdead
    unfold pollNext
    rw [hq]
    obtain ⟨g1, g2, g3, _⟩ := drainLoop_dead s buf [] hp hok
    refine ⟨?_, ?_, ?_⟩
    · show (drainLoop s buf []).outcome = PollOutcome.pending
      exact g1
    · show (drainLoop s buf []).state.paths_by_watch = []
      exact g2
    · show (drainLoop s buf []).state.new_directories = []
      rw [g3, hq]

/-- C6 (witness): a concrete `DELETE_SELF` on the watched root leaves a dead
state, and polling a concrete dead state with a buffered record stays
pending. -/
theorem c6_witness :
    deadState (translate sRootOnly { wd := 0, name := none, mask := maskDELETE_SELF }).2 ∧
    (pollNext fsAll sDead
      [RawItem.ok { wd := 3, name := none, mask := maskCREATE }]).outcome
      = PollOutcome.pending :=
  ⟨c6_stopped_then_silent.1 sRootOnly _ .DirectoryRemoved (by decide) (by decide) rfl
     (by decide),
   (c6_stopped_then_silent.2 fsAll sDead _ (by decide) (by decide)).1⟩

/-- C7 (code bug): translating a `CREATE|ISDIR` record that names a directory
which is already a key of the active mapping appends that path to the
pending queue without any check (the TODO at `src/inotify.rs` line 267 notes
the missing check), so the pending queue then holds a path that is also a
key of `watches_by_path`. -/
theorem c7_double_watch :
    lookupKey sRootSub.watches_by_path "/r/sub" = some 1 ∧
    (translate sRootSub { wd := 0, name := some "sub", mask := maskCREATE_DIR }).1
      = some (.DirectoryCreated "/r/sub") ∧
    (translate sRootSub { wd := 0, name := some "sub", mask := maskCREATE_DIR }).2.new_directories
      = ["/r/sub"] := by
  decide

/-- C8 (confirmed): a record whose handle is in the pending-release set
produces no event and removes the handle from that set exactly when the
record is the `IGNORED` retirement confirmation; a record whose handle is
neither pending-release nor active produces no event and leaves the state
unchanged. -/
theorem c8_unknown_handle (s : WState) (ev : RawRecord) :
    (ev.wd ∈ s.removed_watches →
      translate s ev = (none, if ev.mask = maskIGNORED
        then { s with removed_watches := s.removed_watches.erase ev.wd } else s)) ∧
    (ev.wd ∈ s.removed_watches → s.removed_watches.Nodup →
      (ev.wd ∉ (translate s ev).2.removed_watches ↔ ev.mask = maskIGNORED)) ∧
    (ev.wd ∉ s.removed_watches → lookupKey s.paths_by_watch ev.wd = none →
      translate s ev = (none, s)) := by
  refine ⟨?_, ?_, ?_⟩
  · intro h1
    unfold translate
    rw [if_pos h1]
    by_cases h2 : ev.mask = maskIGNORED
    · simp only [if_pos h2]
    · simp only [if_neg h2]
  · intro h1 hnd
    unfold translate
    rw [if_pos h1]
    by_cases h2 : ev.mask = maskIGNORED
    · rw [if_pos h2]
      show ev.wd ∉ s.removed_watches.erase ev.wd ↔ ev.mask = maskIGNORED
      constructor
      · exact fun _ => h2
      · intro _ hmem
        exact (hnd.mem_erase_iff.mp hmem).1 rfl
    · rw [if_neg h2]
      show ev.wd ∉ s.removed_watches ↔ ev.mask = maskIGNORED
      constructor
      · exact fun hno => absurd h1 hno
      · exact fun hm => absurd hm h2
  · intro h1 hl
    unfold translate
    rw [if_neg h1, hl]

/-- C8 (witness): a concrete `IGNORED` confirmation for a pending-release
handle purges it, and a concrete record with an entirely unknown handle
leaves the state untouched. -/
theorem c8_witness :
    translate sPending { wd := 5, name := none, mask := maskIGNORED }
      = (none, { sPending with removed_watches := [] }) ∧
    translate sPending { wd := 9, name := none, mask := maskCREATE } = (none, sPending) := by
  constructor
  · have h := (c8_unknown_handle sPending { wd := 5, name := none, mask := maskIGNORED }).1
      (by decide)
    simpa using h
  · exact (c8_unknown_handle sPending { wd := 9, name := none, mask := maskCREATE }).2.2
      (by decide) (by decide)

/-- C9 (counterexample): the claim says a self-deleted record on an active
handle whose watched path equals the root makes the translator emit
`Stopped`.  For the record `{wd 0, name "x", DELETE_SELF}` the watched path
of handle 0 is the root "/r", yet the translator compares the root against
the extended path "/r/x" and emits nothing. -/
theorem c9_counterexample :
    lookupKey sRootOnly.paths_by_watch 0 = some "/r" ∧
    sRootOnly.root_dir = "/r" ∧
    (0 : Nat) ∉ sRootOnly.removed_watches ∧
    ({ wd := 0, name := some "x", mask := maskDELETE_SELF } : RawRecord).mask
      = maskDELETE_SELF ∧
    (translate sRootOnly { wd := 0, name := some "x", mask := maskDELETE_SELF }).1 = none := by
  decide

/-- C9 (amended): for a self-deleted record without a child name (so the
record's path is the watched path) on an active handle, the translator emits
`Stopped(DirectoryRemoved)` and marks the subtree removed exactly when that
path equals the root, and emits nothing otherwise. -/
theorem c9_delete_self (s : WState) (ev : RawRecord) (d : String)
    (hmask : ev.mask = maskDELETE_SELF) (hname : ev.name = none)
    (hrm : ev.wd ∉ s.removed_watches) (hl : lookupKey s.paths_by_watch ev.wd = some d) :
    translate s ev = if d = s.root_dir
      then (some (.Stopped .DirectoryRemoved), delete_watches s d)
      else (none, s) := by
  have hstep : translate s ev = translateActive s ev d := by
    unfold translate
    rw [if_neg hrm, hl]
  rw [hstep]
  unfold translateActive
  rw [hname, hmask]
  norm_num [maskCREATE, maskMODIFY, maskATTRIB, maskDELETE, maskMOVED_FROM, maskMOVED_TO,
    maskCREATE_DIR, maskDELETE_DIR, maskMOVED_FROM_DIR, maskMOVED_TO_DIR, maskDELETE_SELF,
    maskIGNORED, maskISDIR, eventPath]

/-- C9 (witness): a concrete nameless `DELETE_SELF` on the root handle stops
the watcher and removes the subtree. -/
theorem c9_witness :
    translate sRootOnly { wd := 0, name := none, mask := maskDELETE_SELF }
      = (some (.Stopped .DirectoryRemoved), delete_watches sRootOnly "/r") := by
  have h := c9_delete_self sRootOnly { wd := 0, name := none, mask := maskDELETE_SELF } "/r"
    rfl rfl (by decide) (by decide)
  simpa using h

/-- C10 (confirmed): every event the poll loop can return is one of the
variants the implementation constructs (never `DirectoryModified`,
`DirectoryMoved` or `FileMoved`), and the coalescer only ever delivers
events it previously accepted from its input, so the composed watcher never
produces the three unimplemented variants. -/
theorem c10_only_declared_variants :
    (∀ fs s buf e, (pollNext fs s buf).outcome = PollOutcome.event e →
      allowedEvent e = true) ∧
    (∀ ds inp t e ds', delay_poll_next ds inp t = DelayPollResult.event e ds' →
      e ∈ ds.processed ∨ e ∈ ds.ready) :=
  ⟨fun fs s buf e h => installGo_allowed fs s.new_directories s buf [] e h,
   fun ds inp t e ds' h => delay_event_src ds inp t e ds' h⟩

/-- C10 (witness): a concrete poll yields `DirectoryWatched`, an allowed
variant, and a concrete coalescer delivery comes from its own queues. -/
theorem c10_witness :
    allowedEvent (FileSystemEvent.DirectoryWatched "/r") = true ∧
    (FileSystemEvent.FileCreated "/r/f" ∈ dsOneProcessed.processed ∨
      FileSystemEvent.FileCreated "/r/f" ∈ dsOneProcessed.ready) :=
  ⟨c10_only_declared_variants.1 fsAll sFresh [] _ (by decide),
   c10_only_declared_variants.2 dsOneProcessed [] false (.FileCreated "/r/f")
     { incoming := [], ready := [], processed := [], timerRunning := false } (by decide)⟩

end Fswatcher
